import Mathlib

/-!
# Verification of the dorado modified-base batching/aggregation engine

Shallow embedding of the concurrent batching and scheduling engine of
`src/dorado/read_pipeline/ModBaseCallerNode.cpp` (the read-to-chunk
expander, the per-model batch dispatchers, and the result aggregator),
together with a model of the bounded concurrent channel used by the
pipeline.  Definitions follow the C++ source; where a needed declaration
of the repository is not among the provided sources (the node's header,
`utils/AsyncQueue.h`, `modbase/remora_utils.h`), the definition is
modelled from the specification and marked as such in its doc comment.
-/

namespace Dorado

/-- The four canonical bases of the expected alphabet "ACGT". -/
inductive Base where
  | A | C | G | T
deriving DecidableEq, Repr

/-- Modelled from the spec: RemoraUtils::BASE_IDS (declared in
modbase/remora_utils.h, not among the sources) maps the expected
alphabet A, C, G, T to ids 0..3 and every other character to -1.
We model the id as an `Option Base`; `none` corresponds to -1. -/
def baseOfChar (c : Char) : Option Base :=
  if c = 'A' then some .A
  else if c = 'C' then some .C
  else if c = 'G' then some .G
  else if c = 'T' then some .T
  else none

/-- The integer id of a character, exactly BASE_IDS: 0..3 for ACGT, -1 otherwise. -/
def baseId (c : Char) : Int :=
  match baseOfChar c with
  | some .A => 0
  | some .C => 1
  | some .G => 2
  | some .T => 3
  | none => -1

/-- The probability byte the output worker stores
(ModBaseCallerNode.cpp:362): `uint8_t(std::min(std::floor(score * 256), 255.0f))`.
Scores are modelled as exact rationals: multiplication of a float by 256,
`floorf`, `min` against 255.0f and the in-range float-to-uint8 conversion
are all exact IEEE operations, so the rational model agrees with the
float computation for every score in [0, 1]. -/
def encodeScore (s : ℚ) : ℕ := (min ⌊s * 256⌋ 255).toNat

end Dorado

/-- C10: every probability value the aggregator stores is
`uint8(min(floor(score*256), 255))`: it never exceeds 255, any score at or
above 255/256 saturates to 255, and on scores the mapping is total and
monotone, so the buffer's encoding is a 0–255 quantization of per-class
probabilities. -/
theorem Dorado.C10_score_quantization (s t : ℚ) (hst : s ≤ t) :
    Dorado.encodeScore s ≤ 255 ∧
    ((255 : ℚ) / 256 ≤ s → Dorado.encodeScore s = 255) ∧
    Dorado.encodeScore s ≤ Dorado.encodeScore t := by
  refine ⟨?_, ?_, ?_⟩
  · have h : min ⌊s * 256⌋ 255 ≤ (255 : ℤ) := min_le_right _ _
    have h2 := Int.toNat_le_toNat h
    simp only [Dorado.encodeScore]
    exact h2
  · intro hs
    have h256 : (255 : ℚ) ≤ s * 256 := by linarith
    have hfl : (255 : ℤ) ≤ ⌊s * 256⌋ := by
      have : ((255 : ℤ) : ℚ) ≤ s * 256 := by exact_mod_cast h256
      exact Int.le_floor.mpr this
    have : min ⌊s * 256⌋ 255 = (255 : ℤ) := min_eq_right hfl
    simp [Dorado.encodeScore, this]
  · have hfl : ⌊s * 256⌋ ≤ ⌊t * 256⌋ := by
      apply Int.floor_le_floor
      nlinarith
    have h : min ⌊s * 256⌋ 255 ≤ min ⌊t * 256⌋ 255 := by
      exact min_le_min hfl le_rfl
    exact Int.toNat_le_toNat h

/-- Witness for C10 at concrete scores 1/2 ≤ 1. -/
theorem Dorado.C10_score_quantization_witness :
    Dorado.encodeScore (1/2) ≤ 255 ∧
    ((255 : ℚ) / 256 ≤ (1/2 : ℚ) → Dorado.encodeScore (1/2) = 255) ∧
    Dorado.encodeScore (1/2) ≤ Dorado.encodeScore 1 :=
  Dorado.C10_score_quantization (1/2) 1 (by norm_num)

namespace Dorado

/-! ## The bounded concurrent channel (AsyncQueue)

Modelled from the spec: `utils/AsyncQueue.h` is not among the provided
sources (only its unit tests in `src/tests/AsyncQueueTest.cpp` are), so
the channel is modelled from spec §4.1: a fixed-capacity FIFO;
`try_push` fails if the channel has been terminated or is full;
`try_pop` returns the oldest buffered item, draining remaining items
even after termination, and fails once the channel is terminated and
empty; `terminate` is idempotent.  Blocking behaviour is out of scope of
the functional model: `try_pop` here describes the result a pop
delivers once it returns. -/

/-- Modelled from the spec: the state of an AsyncQueue — buffered items
in FIFO order, the fixed capacity, and the termination flag. -/
structure AsyncQueue (α : Type) where
  items : List α
  capacity : ℕ
  terminated : Bool
deriving Repr

/-- A fresh channel of the given capacity. -/
def AsyncQueue.new (α : Type) (cap : ℕ) : AsyncQueue α :=
  { items := [], capacity := cap, terminated := false }

/-- Modelled from the spec: `try_push` fails (queue unchanged, returns
false) if the channel is terminated or full; otherwise appends the item
at the back and succeeds. -/
def AsyncQueue.try_push {α : Type} (q : AsyncQueue α) (x : α) : AsyncQueue α × Bool :=
  if q.terminated then (q, false)
  else if q.capacity ≤ q.items.length then (q, false)
  else ({ q with items := q.items ++ [x] }, true)

/-- Modelled from the spec: the result of a completed `try_pop` — the
oldest buffered item when one exists (even after termination: remaining
items are drained), failure when the channel is empty. -/
def AsyncQueue.try_pop {α : Type} (q : AsyncQueue α) : AsyncQueue α × Option α :=
  match q.items with
  | [] => (q, none)
  | x :: rest => ({ q with items := rest }, some x)

/-- Modelled from the spec: `terminate` sets the termination flag. -/
def AsyncQueue.terminate {α : Type} (q : AsyncQueue α) : AsyncQueue α :=
  { q with terminated := true }

/-- Push a list of items in order, keeping the success flags. -/
def AsyncQueue.pushList {α : Type} (q : AsyncQueue α) : List α → AsyncQueue α × List Bool
  | [] => (q, [])
  | x :: xs =>
      let (q1, ok) := q.try_push x
      let (q2, oks) := q1.pushList xs
      (q2, ok :: oks)

/-- Pop `n` items in sequence, collecting the delivered values. -/
def AsyncQueue.popN {α : Type} (q : AsyncQueue α) : ℕ → AsyncQueue α × List (Option α)
  | 0 => (q, [])
  | n + 1 =>
      let (q1, v) := q.try_pop
      let (q2, vs) := q1.popN n
      (q2, v :: vs)

theorem AsyncQueue.pushList_not_terminated {α : Type} (q : AsyncQueue α)
    (xs : List α) (hterm : q.terminated = false)
    (hcap : q.items.length + xs.length ≤ q.capacity) :
    q.pushList xs =
      ({ q with items := q.items ++ xs }, List.replicate xs.length true) := by
  induction xs generalizing q with
  | nil => simp [AsyncQueue.pushList]
  | cons x xs ih =>
      have hlt : q.items.length < q.capacity := by
        simp only [List.length_cons] at hcap
        omega
      have hpush : q.try_push x = ({ q with items := q.items ++ [x] }, true) := by
        simp [AsyncQueue.try_push, hterm, Nat.not_le.mpr hlt]
      have hcap2 : (q.items ++ [x]).length + xs.length ≤ q.capacity := by
        simp only [List.length_append, List.length_singleton]
        simp only [List.length_cons] at hcap
        omega
      have ih2 := ih { q with items := q.items ++ [x] } hterm hcap2
      simp [AsyncQueue.pushList, hpush, ih2, List.replicate_succ]

theorem AsyncQueue.popN_all {α : Type} (q : AsyncQueue α) :
    q.popN q.items.length = ({ q with items := [] }, q.items.map some) := by
  generalize hxs : q.items = xs
  induction xs generalizing q with
  | nil =>
      simp [AsyncQueue.popN]
      cases q
      simp_all
  | cons x rest ih =>
      have hpop : q.try_pop = ({ q with items := rest }, some x) := by
        simp [AsyncQueue.try_pop, hxs]
      have ih2 := ih { q with items := rest } rfl
      simp [AsyncQueue.popN, hpop, ih2]

end Dorado

/-- C3: on an otherwise idle channel, N pushes (within capacity) followed
by N pops deliver the pushed items in pushed order; `terminate` is
idempotent; after `terminate`, every `try_push` fails and leaves the
channel unchanged, while `try_pop` first drains the items still buffered
at termination, in order, and then fails once the channel is empty. -/
theorem Dorado.C3_channel_fifo_and_termination {α : Type} (cap : ℕ) (xs : List α)
    (q : Dorado.AsyncQueue α) (x : α) (hcap : xs.length ≤ cap) (hq : q.terminated = true) :
    (((Dorado.AsyncQueue.new α cap).pushList xs).1.popN xs.length).2 = xs.map some ∧
    ((Dorado.AsyncQueue.new α cap).pushList xs).2 = List.replicate xs.length true ∧
    q.terminate = q ∧
    (q.terminate.terminate = q.terminate) ∧
    q.try_push x = (q, false) ∧
    (q.popN q.items.length).2 = q.items.map some ∧
    ((q.popN q.items.length).1.try_pop = ((q.popN q.items.length).1, none)) := by
  have hpush := Dorado.AsyncQueue.pushList_not_terminated
    (Dorado.AsyncQueue.new α cap) xs rfl (by simpa [Dorado.AsyncQueue.new] using hcap)
  have hpop := Dorado.AsyncQueue.popN_all
    ({ Dorado.AsyncQueue.new α cap with items := [] ++ xs })
  refine ⟨?_, ?_, ?_, ?_, ?_, ?_, ?_⟩
  · rw [hpush]
    simpa [Dorado.AsyncQueue.new] using congrArg Prod.snd hpop
  · rw [hpush]
  · cases q; simp_all [Dorado.AsyncQueue.terminate]
  · simp [Dorado.AsyncQueue.terminate]
  · simp [Dorado.AsyncQueue.try_push, hq]
  · exact congrArg Prod.snd (Dorado.AsyncQueue.popN_all q)
  · rw [Dorado.AsyncQueue.popN_all q]
    simp [Dorado.AsyncQueue.try_pop]

/-- Witness for C3: capacity 3, pushed items [10, 20], a terminated
channel holding [7]: a push on the terminated channel fails. -/
theorem Dorado.C3_channel_fifo_and_termination_witness :
    (Dorado.AsyncQueue.mk [7] 1 true).try_push 9 = (Dorado.AsyncQueue.mk [7] 1 true, false) :=
  (Dorado.C3_channel_fifo_and_termination 3 [10, 20]
    (Dorado.AsyncQueue.mk [7] 1 true) 9 (by decide) rfl).2.2.2.2.1

namespace Dorado

/-! ## Model metadata: get_modbase_info_and_maybe_init

ModBaseCallerNode.cpp:69-128.  Per model the motif base
`params.motif[params.motif_offset]` must be one of "ACGT", otherwise a
runtime error is thrown; `model_info[BASE_IDS[base]].base_counts` is set
to `base_mod_count + 1`, `m_num_states` is incremented by
`base_mod_count`, and `m_base_prob_offsets` become the prefix sums of
the four `base_counts` (each defaulting to 1). -/

/-- The modelled fields of BaseModParams the scheduling engine consumes:
the motif string, the motif offset and the number of modifications. -/
structure BaseModParams where
  motif : List Char
  motif_offset : ℕ
  base_mod_count : ℕ

/-- The context-match base `params.motif[params.motif_offset]`. -/
def motifBase (p : BaseModParams) : Char := p.motif.getD p.motif_offset ' '

/-- The loop of get_modbase_info_and_maybe_init over the model params,
threading (base_counts, m_num_states).  Modelled from the spec: the
node's header is not among the sources; per the spec the number of
probability classes is the four canonical classes plus one class per
modification, so `m_num_states` starts at 4. -/
def infoFold : List BaseModParams → ((Base → ℕ) × ℕ) → Except String ((Base → ℕ) × ℕ)
  | [], st => .ok st
  | p :: ps, st =>
      match baseOfChar (motifBase p) with
      | none => .error "Invalid base in remora model metadata."
      | some b =>
          infoFold ps (Function.update st.1 b (p.base_mod_count + 1), st.2 + p.base_mod_count)

/-- get_modbase_info_and_maybe_init restricted to the fields the
scheduling engine uses: the per-base class counts and the state count. -/
def get_modbase_info (ps : List BaseModParams) : Except String ((Base → ℕ) × ℕ) :=
  infoFold ps (fun _ => 1, 4)

/-- m_base_prob_offsets (ModBaseCallerNode.cpp:121-124): prefix sums of
the four per-base class counts, in base-id order A, C, G, T. -/
def offsets (counts : Base → ℕ) : Base → ℕ
  | .A => 0
  | .C => counts .A
  | .G => counts .A + counts .C
  | .T => counts .A + counts .C + counts .G

/-- Total of the four per-base class counts. -/
def countsSum (counts : Base → ℕ) : ℕ :=
  counts .A + counts .C + counts .G + counts .T

theorem infoFold_invariant (ps : List BaseModParams) (st : (Base → ℕ) × ℕ)
    (c : Base → ℕ) (n : ℕ)
    (hinv : (∀ b, 1 ≤ st.1 b) ∧ countsSum st.1 ≤ st.2)
    (h : infoFold ps st = .ok (c, n)) :
    (∀ b, 1 ≤ c b) ∧ countsSum c ≤ n := by
  induction ps generalizing st with
  | nil =>
      simp only [infoFold, Except.ok.injEq] at h
      subst h
      exact hinv
  | cons p ps ih =>
      simp only [infoFold] at h
      cases hb : baseOfChar (motifBase p) with
      | none => rw [hb] at h; exact absurd h (by simp)
      | some b =>
          rw [hb] at h
          apply ih _ _ h
          obtain ⟨hone, hsum⟩ := hinv
          constructor
          · intro b2
            by_cases hbb : b2 = b
            · subst hbb; simp [Function.update]
            · simp [Function.update, hbb]
              exact hone b2
          · have hA := hone .A
            have hC := hone .C
            have hG := hone .G
            have hT := hone .T
            simp only [countsSum] at hsum ⊢
            cases b <;>
              simp only [Function.update_apply, if_pos, if_neg, reduceCtorEq,
                reduceIte] <;> omega

/-- The offsets fit: each base's class slice lies within num_states. -/
theorem offsets_add_counts_le (ps : List BaseModParams) (c : Base → ℕ) (n : ℕ)
    (h : get_modbase_info ps = .ok (c, n)) (b : Base) :
    offsets c b + c b ≤ n := by
  have hinv := infoFold_invariant ps (fun _ => 1, 4) c n
    (by constructor <;> simp [countsSum]) h
  obtain ⟨hone, hsum⟩ := hinv
  cases b <;> simp only [offsets, countsSum] at hsum ⊢ <;> omega

/-! ## Runner worker: result-buffer initialization and read expansion

ModBaseCallerNode.cpp:157-228.  Before any chunk of a read is enqueued,
`base_mod_probs` is resized to `seq.size() * m_num_states` filled with
0, and for each position `i` the entry at
`i * m_num_states + m_base_prob_offsets[BASE_IDS[seq[i]]]` is assigned
`1.0f`; a character outside "ACGT" throws.  The buffer elements are the
probability bytes written by the output worker (spec: a
`sequence_length × num_probability_classes` buffer of quantized
probabilities), so the float literal 1.0f converts to the byte 1. -/

/-- The byte actually stored by `base_mod_probs[...] = 1.0f`
(ModBaseCallerNode.cpp:167): converting the float 1.0 to a probability
byte yields 1. -/
def initValue : ℕ := 1

/-- The per-position initialization loop (ModBaseCallerNode.cpp:161-168):
at position `i` with base `b`, set entry `i * numStates + off b` to
`initValue`; throw on a character outside the alphabet. -/
def initLoop (numStates : ℕ) (off : Base → ℕ) :
    List Char → ℕ → List ℕ → Except String (List ℕ)
  | [], _, buf => .ok buf
  | ch :: cs, i, buf =>
      match baseOfChar ch with
      | none => .error "Invalid character in sequence."
      | some b => initLoop numStates off cs (i + 1) (buf.set (i * numStates + off b) initValue)

/-- Initialization of a read's result buffer
(ModBaseCallerNode.cpp:159-168): zero-fill then the per-position loop. -/
def init_base_mod_probs (numStates : ℕ) (off : Base → ℕ) (seq : List Char) :
    Except String (List ℕ) :=
  initLoop numStates off seq 0 (List.replicate (seq.length * numStates) 0)

/-- State mutated by one runner pass over one read: the per-model chunk
queues (holding the sequence positions of the enqueued chunks), the
working-read list and the reads pushed to the sink. -/
structure RunnerState where
  chunk_queues : List (List ℕ)
  working_reads : List ℕ
  sink : List ℕ

/-- One runner iteration for one read (ModBaseCallerNode.cpp:157-228):
initialize the result buffer (throwing on an invalid character), enqueue
every model's motif hits as chunks onto that model's queue, set the
issued-chunk count to the total hit count, and either insert the read
into the working list (some chunks) or forward it directly to the sink
(zero chunks).  The backpressure wait that precedes this body is
modelled separately as a transition system. -/
def runnerProcessRead (numStates : ℕ) (off : Base → ℕ) (st : RunnerState)
    (rid : ℕ) (seq : List Char) (hits : List (List ℕ)) :
    Except String (RunnerState × List ℕ × ℕ) := do
  let buf ← init_base_mod_probs numStates off seq
  let issued := (hits.map List.length).sum
  let queues := List.zipWith (fun q h => q ++ h) st.chunk_queues hits
  if issued ≠ 0 then
    pure (⟨queues, st.working_reads ++ [rid], st.sink⟩, buf, issued)
  else
    pure (⟨queues, st.working_reads, st.sink ++ [rid]⟩, buf, issued)

end Dorado

/-- C9: malformed input fails loudly.  A read whose sequence contains a
character outside {A,C,G,T} makes the runner raise an error, and the
read is neither chunked onto a request queue nor forwarded downstream
(the runner state is unchanged because the pass returns no new state);
model metadata whose context-match base at the motif offset is outside
{A,C,G,T} makes initialization raise an error instead of producing the
model info. -/
theorem Dorado.C9_malformed_input_fails_loudly
    (numStates : ℕ) (off : Dorado.Base → ℕ) (st : Dorado.RunnerState)
    (rid : ℕ) (seq : List Char) (hits : List (List ℕ)) (c : Char)
    (hc : c ∈ seq) (hbad : Dorado.baseOfChar c = none)
    (ps : List Dorado.BaseModParams) (p : Dorado.BaseModParams)
    (hp : p ∈ ps) (hpbad : Dorado.baseOfChar (Dorado.motifBase p) = none) :
    Dorado.runnerProcessRead numStates off st rid seq hits =
      .error "Invalid character in sequence." ∧
    Dorado.get_modbase_info ps = .error "Invalid base in remora model metadata." := by
  constructor
  · have hinit : ∀ (cs : List Char) (i : ℕ) (buf : List ℕ), c ∈ cs →
        Dorado.initLoop numStates off cs i buf = .error "Invalid character in sequence." := by
      intro cs
      induction cs with
      | nil => intro i buf h; exact absurd h (List.not_mem_nil c)
      | cons d ds ih =>
          intro i buf h
          rcases List.mem_cons.mp h with h | h
          · subst h
            simp [Dorado.initLoop, hbad]
          · cases hd : Dorado.baseOfChar d with
            | none => simp [Dorado.initLoop, hd]
            | some b => simp [Dorado.initLoop, hd]; exact ih _ _ h
    have h2 : Dorado.init_base_mod_probs numStates off seq =
        .error "Invalid character in sequence." :=
      hinit seq 0 _ hc
    simp only [Dorado.runnerProcessRead, h2]
    rfl
  · have herr : ∀ (qs : List Dorado.BaseModParams) (st2 : (Dorado.Base → ℕ) × ℕ), p ∈ qs →
        Dorado.infoFold qs st2 = .error "Invalid base in remora model metadata." := by
      intro qs
      induction qs with
      | nil => intro st2 h; exact absurd h (List.not_mem_nil p)
      | cons r rs ih =>
          intro st2 h
          rcases List.mem_cons.mp h with h | h
          · subst h
            simp [Dorado.infoFold, hpbad]
          · cases hr : Dorado.baseOfChar (Dorado.motifBase r) with
            | none => simp [Dorado.infoFold, hr]
            | some b => simp [Dorado.infoFold, hr]; exact ih _ h
    exact herr ps _ hp

/-- Witness for C9: sequence "AXG" (X invalid) with one C-motif model
whose metadata is corrupted ('Z' at the motif offset). -/
theorem Dorado.C9_malformed_input_fails_loudly_witness :
    Dorado.runnerProcessRead 4 (Dorado.offsets fun _ => 1)
        (Dorado.RunnerState.mk [[]] [] []) 0 ['A', 'X', 'G'] [[1]] =
      .error "Invalid character in sequence." ∧
    Dorado.get_modbase_info [Dorado.BaseModParams.mk ['Z', 'A'] 0 2] =
      .error "Invalid base in remora model metadata." :=
  Dorado.C9_malformed_input_fails_loudly 4 (Dorado.offsets fun _ => 1)
    (Dorado.RunnerState.mk [[]] [] []) 0 ['A', 'X', 'G'] [[1]] 'X'
    (by decide) (by decide)
    [Dorado.BaseModParams.mk ['Z', 'A'] 0 2] (Dorado.BaseModParams.mk ['Z', 'A'] 0 2)
    (by simp) (by decide)

namespace Dorado

/-- Class counts for one 5mC-style model on base C with one
modification: two classes on C, one on each other base (num_states 5). -/
def cexCounts : Base → ℕ := Function.update (fun _ => 1) .C 2

end Dorado

/-- C2: the initialization writes `1.0f` into the byte result buffer
(ModBaseCallerNode.cpp:167), which stores the byte 1 — but in the value
encoding used by the later chunk-result writes
(ModBaseCallerNode.cpp:362, `uint8(min(floor(score*256), 255))`) the
distribution "probability 1 on the canonical class" is the byte 255,
not 1.  Evaluated at a read with sequence "C" under one C-model with one
modification (num_states 5, canonical-C class offset 1): the buffer is
initialized to [0, 1, 0, 0, 0], while encoding probability 1 yields
255 ≠ 1.  The code contradicts its own comment ("Initialize for what
corresponds to 100% canonical base for each position"). -/
theorem Dorado.C2_default_buffer_value_is_not_full_probability :
    Dorado.init_base_mod_probs 5 (Dorado.offsets Dorado.cexCounts) ['C'] =
      .ok [0, Dorado.initValue, 0, 0, 0] ∧
    Dorado.initValue = 1 ∧
    Dorado.encodeScore 1 = 255 ∧
    Dorado.initValue ≠ Dorado.encodeScore 1 := by
  refine ⟨by rfl, rfl, ?_, ?_⟩
  · have h : ⌊(1 : ℚ) * 256⌋ = 256 := by norm_num
    simp [Dorado.encodeScore, h]
  · intro hcontra
    have h : ⌊(1 : ℚ) * 256⌋ = 256 := by norm_num
    simp [Dorado.initValue, Dorado.encodeScore, h] at hcontra

namespace Dorado

/-! ## Batch scoring and result aggregation

ModBaseCallerNode.cpp:314-341 (call_current_batch) and 355-365 (the
output worker's per-chunk result write). -/

/-- A RemoraChunk as the scheduling engine sees it: the owning read, the
sequence position it scores (context_hit) and its result vector. -/
structure RemoraChunk where
  readId : ℕ
  context_hit : ℕ
  scores : List ℚ
deriving DecidableEq

/-- Writing one score row into a chunk's result vector
(ModBaseCallerNode.cpp:332-333): resize and copy the row. -/
def setChunkScores (ch : RemoraChunk) (row : List ℚ) : RemoraChunk :=
  { ch with scores := row }

/-- call_current_batch (ModBaseCallerNode.cpp:314-341): the i-th row of
the inference result is copied into the i-th batched chunk, each scored
chunk is appended to the processed-chunks buffer, and the batch is
cleared.  Arguments: the current batch, the result rows (one per slot,
in slot order) and the current processed buffer; result: the new
processed buffer and the new (cleared) batch. -/
def call_current_batch (batched : List RemoraChunk) (results : List (List ℚ))
    (processed : List RemoraChunk) : List RemoraChunk × List RemoraChunk :=
  (processed ++ List.zipWith setChunkScores batched results, [])

/-- The read fields the output worker mutates. -/
structure AggRead where
  seq : List Char
  base_mod_probs : List ℕ
  num_modbase_chunks : ℕ
  num_modbase_chunks_called : ℕ
deriving DecidableEq

/-- The inner loop of the output worker's result write
(ModBaseCallerNode.cpp:360-363): store the encoded scores at
consecutive buffer indices starting at the chunk's offset. -/
def writeScoresFrom : List ℕ → ℕ → List ℚ → List ℕ
  | buf, _, [] => buf
  | buf, k, s :: rest => writeScoresFrom (buf.set k (encodeScore s)) (k + 1) rest

/-- Applying one processed chunk to its source read
(ModBaseCallerNode.cpp:355-364): write the encoded result vector at
offset `num_states * context_hit + m_base_prob_offsets[base]` and
increment the completed-chunk counter.  The `none` branch (a character
outside the alphabet) is unreachable for reads that passed buffer
initialization. -/
def applyChunk (numStates : ℕ) (off : Base → ℕ) (read : AggRead) (ch : RemoraChunk) :
    AggRead :=
  match baseOfChar (read.seq.getD ch.context_hit ' ') with
  | some b =>
      ⟨read.seq,
       writeScoresFrom read.base_mod_probs (numStates * ch.context_hit + off b) ch.scores,
       read.num_modbase_chunks,
       read.num_modbase_chunks_called + 1⟩
  | none => read

theorem writeScoresFrom_length (sc : List ℚ) (buf : List ℕ) (k : ℕ) :
    (writeScoresFrom buf k sc).length = buf.length := by
  induction sc generalizing buf k with
  | nil => rfl
  | cons s rest ih =>
      simp only [writeScoresFrom, ih, List.length_set]

theorem writeScoresFrom_get_lt (sc : List ℚ) (buf : List ℕ) (k m : ℕ) (hm : m < k) :
    (writeScoresFrom buf k sc).get? m = buf.get? m := by
  induction sc generalizing buf k with
  | nil => rfl
  | cons s rest ih =>
      simp only [writeScoresFrom]
      rw [ih _ _ (Nat.lt_succ_of_lt hm)]
      exact List.get?_set_ne _ _ (by omega)

theorem writeScoresFrom_get_ge (sc : List ℚ) (buf : List ℕ) (k m : ℕ)
    (hm : k + sc.length ≤ m) :
    (writeScoresFrom buf k sc).get? m = buf.get? m := by
  induction sc generalizing buf k with
  | nil => rfl
  | cons s rest ih =>
      simp only [List.length_cons] at hm
      simp only [writeScoresFrom]
      rw [ih _ _ (by omega)]
      exact List.get?_set_ne _ _ (by omega)

theorem writeScoresFrom_get_in (sc : List ℚ) (buf : List ℕ) (k j : ℕ)
    (hj : j < sc.length) (hbuf : k + sc.length ≤ buf.length) :
    (writeScoresFrom buf k sc).get? (k + j) = (sc.get? j).map encodeScore := by
  induction sc generalizing buf k j with
  | nil => exact absurd hj (by simp)
  | cons s rest ih =>
      simp only [List.length_cons] at hj hbuf
      cases j with
      | zero =>
          simp only [writeScoresFrom, Nat.add_zero]
          rw [writeScoresFrom_get_lt rest _ (k + 1) k (Nat.lt_succ_self k)]
          rw [List.get?_set_eq_of_lt _ (by omega)]
          rfl
      | succ j =>
          simp only [writeScoresFrom]
          have hadd : k + (j + 1) = (k + 1) + j := by omega
          rw [hadd, ih _ (k + 1) j (by omega) (by simp only [List.length_set]; omega)]
          rfl

end Dorado

/-- C5: when a dispatcher scores a batch of n chunks, the i-th result
row (slot order) is written into the i-th chunk of the batch, every
scored chunk is handed to the aggregator exactly once (the processed
buffer grows by exactly the batch, in order), and the batch is cleared;
the aggregator writes chunk score element j into the owning read's
buffer at index `num_states * position + offset(base at position) + j`
and increments the read's completed-chunk counter by exactly one per
chunk. -/
theorem Dorado.C5_batch_scoring_and_aggregation
    (batched : List Dorado.RemoraChunk) (results : List (List ℚ))
    (processed : List Dorado.RemoraChunk) (i : ℕ)
    (hlen : batched.length = results.length) (_hi : i < batched.length)
    (numStates : ℕ) (off : Dorado.Base → ℕ) (read : Dorado.AggRead)
    (ch : Dorado.RemoraChunk) (b : Dorado.Base) (j : ℕ)
    (hb : Dorado.baseOfChar (read.seq.getD ch.context_hit ' ') = some b)
    (hj : j < ch.scores.length)
    (hbuf : numStates * ch.context_hit + off b + ch.scores.length ≤
      read.base_mod_probs.length) :
    (Dorado.call_current_batch batched results processed).1.length =
      processed.length + batched.length ∧
    (Dorado.call_current_batch batched results processed).1.get? (processed.length + i) =
      (batched.get? i).bind (fun c => (results.get? i).map (Dorado.setChunkScores c)) ∧
    (Dorado.call_current_batch batched results processed).2 = [] ∧
    (Dorado.applyChunk numStates off read ch).base_mod_probs.get?
        (numStates * ch.context_hit + off b + j) =
      (ch.scores.get? j).map Dorado.encodeScore ∧
    (Dorado.applyChunk numStates off read ch).num_modbase_chunks_called =
      read.num_modbase_chunks_called + 1 := by
  refine ⟨?_, ?_, rfl, ?_, ?_⟩
  · simp [Dorado.call_current_batch, List.length_zipWith, hlen]
  · simp only [Dorado.call_current_batch]
    rw [List.get?_append_right (by omega)]
    have hidx : processed.length + i - processed.length = i := by omega
    rw [hidx]
    rw [List.get?_zipWith']
    cases batched.get? i <;> cases results.get? i <;> rfl
  · simp only [Dorado.applyChunk, hb]
    exact Dorado.writeScoresFrom_get_in ch.scores read.base_mod_probs _ j hj hbuf
  · simp only [Dorado.applyChunk, hb]

/-- Witness for C5: a batch of two chunks of read 0 at positions 1 and 3,
rows [[1/2], [1/4]], applied to a read with sequence "ACGT" under one
C-model (num_states 5, offsets of cexCounts). -/
theorem Dorado.C5_batch_scoring_and_aggregation_witness :
    (Dorado.call_current_batch
        [Dorado.RemoraChunk.mk 0 1 [], Dorado.RemoraChunk.mk 0 3 []]
        [[(1 : ℚ)/2], [(1 : ℚ)/4]] []).1.length = 0 + 2 ∧
    (Dorado.call_current_batch
        [Dorado.RemoraChunk.mk 0 1 [], Dorado.RemoraChunk.mk 0 3 []]
        [[(1 : ℚ)/2], [(1 : ℚ)/4]] []).1.get? (0 + 0) =
      (([Dorado.RemoraChunk.mk 0 1 [], Dorado.RemoraChunk.mk 0 3 []].get? 0).bind
        (fun c => ([[(1 : ℚ)/2], [(1 : ℚ)/4]].get? 0).map (Dorado.setChunkScores c))) ∧
    (Dorado.call_current_batch
        [Dorado.RemoraChunk.mk 0 1 [], Dorado.RemoraChunk.mk 0 3 []]
        [[(1 : ℚ)/2], [(1 : ℚ)/4]] []).2 = [] ∧
    (Dorado.applyChunk 5 (Dorado.offsets Dorado.cexCounts)
        (Dorado.AggRead.mk ['A', 'C', 'G', 'T'] (List.replicate 20 0) 2 0)
        (Dorado.RemoraChunk.mk 0 1 [(1 : ℚ)/2])).base_mod_probs.get?
        (5 * 1 + Dorado.offsets Dorado.cexCounts .C + 0) =
      (([(1 : ℚ)/2].get? 0).map Dorado.encodeScore) ∧
    (Dorado.applyChunk 5 (Dorado.offsets Dorado.cexCounts)
        (Dorado.AggRead.mk ['A', 'C', 'G', 'T'] (List.replicate 20 0) 2 0)
        (Dorado.RemoraChunk.mk 0 1 [(1 : ℚ)/2])).num_modbase_chunks_called = 0 + 1 :=
  Dorado.C5_batch_scoring_and_aggregation
    [Dorado.RemoraChunk.mk 0 1 [], Dorado.RemoraChunk.mk 0 3 []]
    [[(1 : ℚ)/2], [(1 : ℚ)/4]] [] 0 rfl (by decide)
    5 (Dorado.offsets Dorado.cexCounts)
    (Dorado.AggRead.mk ['A', 'C', 'G', 'T'] (List.replicate 20 0) 2 0)
    (Dorado.RemoraChunk.mk 0 1 [(1 : ℚ)/2]) .C 0 (by decide) (by decide) (by decide)

namespace Dorado

/-- Indices outside the written range are untouched. -/
theorem writeScoresFrom_get_out (sc : List ℚ) (buf : List ℕ) (k m : ℕ)
    (hm : m < k ∨ k + sc.length ≤ m) :
    (writeScoresFrom buf k sc).get? m = buf.get? m := by
  cases hm with
  | inl h => exact writeScoresFrom_get_lt sc buf k m h
  | inr h => exact writeScoresFrom_get_ge sc buf k m h

end Dorado

/-- C8: for two chunks of the same read at different sequence positions,
the buffer index ranges they write —
`[num_states*p + offset(base at p), num_states*p + offset(base at p) + L)`
— are disjoint, given each chunk's score-vector length is at most the
class count of its target base; hence applying both chunks' results in
either order yields the same read (each chunk's slice equals the
serial-write result). -/
theorem Dorado.C8_disjoint_chunk_writes
    (ps : List Dorado.BaseModParams) (counts : Dorado.Base → ℕ) (numStates : ℕ)
    (hinfo : Dorado.get_modbase_info ps = .ok (counts, numStates))
    (read : Dorado.AggRead) (ch1 ch2 : Dorado.RemoraChunk) (b1 b2 : Dorado.Base)
    (hb1 : Dorado.baseOfChar (read.seq.getD ch1.context_hit ' ') = some b1)
    (hb2 : Dorado.baseOfChar (read.seq.getD ch2.context_hit ' ') = some b2)
    (hne : ch1.context_hit ≠ ch2.context_hit)
    (hL1 : ch1.scores.length ≤ counts b1)
    (hL2 : ch2.scores.length ≤ counts b2)
    (hpos1 : numStates * ch1.context_hit + numStates ≤ read.base_mod_probs.length)
    (hpos2 : numStates * ch2.context_hit + numStates ≤ read.base_mod_probs.length) :
    (∀ m,
      ¬((numStates * ch1.context_hit + Dorado.offsets counts b1 ≤ m ∧
          m < numStates * ch1.context_hit + Dorado.offsets counts b1 + ch1.scores.length) ∧
        (numStates * ch2.context_hit + Dorado.offsets counts b2 ≤ m ∧
          m < numStates * ch2.context_hit + Dorado.offsets counts b2 + ch2.scores.length))) ∧
    Dorado.applyChunk numStates (Dorado.offsets counts)
        (Dorado.applyChunk numStates (Dorado.offsets counts) read ch1) ch2 =
      Dorado.applyChunk numStates (Dorado.offsets counts)
        (Dorado.applyChunk numStates (Dorado.offsets counts) read ch2) ch1 := by
  have hfit1 : Dorado.offsets counts b1 + ch1.scores.length ≤ numStates :=
    le_trans (Nat.add_le_add_left hL1 _)
      (Dorado.offsets_add_counts_le ps counts numStates hinfo b1)
  have hfit2 : Dorado.offsets counts b2 + ch2.scores.length ≤ numStates :=
    le_trans (Nat.add_le_add_left hL2 _)
      (Dorado.offsets_add_counts_le ps counts numStates hinfo b2)
  have hmul : ∀ a b : ℕ, a < b → numStates * a + numStates ≤ numStates * b := by
    intro a b hab
    calc numStates * a + numStates = numStates * (a + 1) := by ring
    _ ≤ numStates * b := Nat.mul_le_mul_left numStates hab
  have hdisj : ∀ m,
      ¬((numStates * ch1.context_hit + Dorado.offsets counts b1 ≤ m ∧
          m < numStates * ch1.context_hit + Dorado.offsets counts b1 + ch1.scores.length) ∧
        (numStates * ch2.context_hit + Dorado.offsets counts b2 ≤ m ∧
          m < numStates * ch2.context_hit + Dorado.offsets counts b2 + ch2.scores.length)) := by
    intro m ⟨⟨h1a, h1b⟩, ⟨h2a, h2b⟩⟩
    rcases Nat.lt_or_ge ch1.context_hit ch2.context_hit with hlt | hge
    · have hx := hmul _ _ hlt
      omega
    · have hlt2 : ch2.context_hit < ch1.context_hit :=
        lt_of_le_of_ne hge (fun hcontra => hne hcontra.symm)
      have hx := hmul _ _ hlt2
      omega
  refine ⟨hdisj, ?_⟩
  have hseq1 : (Dorado.applyChunk numStates (Dorado.offsets counts) read ch1).seq =
      read.seq := by
    simp only [Dorado.applyChunk, hb1]
  have hseq2 : (Dorado.applyChunk numStates (Dorado.offsets counts) read ch2).seq =
      read.seq := by
    simp only [Dorado.applyChunk, hb2]
  simp only [Dorado.applyChunk, hb1, hb2]
  refine congrArg (fun l => Dorado.AggRead.mk read.seq l read.num_modbase_chunks
    (read.num_modbase_chunks_called + 1 + 1)) ?_
  apply List.ext_get?_iff.mpr
  intro m
  by_cases hm1 : numStates * ch1.context_hit + Dorado.offsets counts b1 ≤ m ∧
      m < numStates * ch1.context_hit + Dorado.offsets counts b1 + ch1.scores.length
  · have hm2 : ¬(numStates * ch2.context_hit + Dorado.offsets counts b2 ≤ m ∧
        m < numStates * ch2.context_hit + Dorado.offsets counts b2 + ch2.scores.length) :=
      fun hc => hdisj m ⟨hm1, hc⟩
    obtain ⟨hm1a, hm1b⟩ := hm1
    have hmrw : m = numStates * ch1.context_hit + Dorado.offsets counts b1 +
        (m - (numStates * ch1.context_hit + Dorado.offsets counts b1)) := by omega
    rw [Dorado.writeScoresFrom_get_out ch2.scores _ _ m (by omega)]
    rw [hmrw]
    rw [Dorado.writeScoresFrom_get_in ch1.scores _ _ _ (by omega) (by omega)]
    rw [Dorado.writeScoresFrom_get_in ch1.scores _ _ _ (by omega)
      (by rw [Dorado.writeScoresFrom_length]; omega)]
  · by_cases hm2 : numStates * ch2.context_hit + Dorado.offsets counts b2 ≤ m ∧
        m < numStates * ch2.context_hit + Dorado.offsets counts b2 + ch2.scores.length
    · obtain ⟨hm2a, hm2b⟩ := hm2
      have hmrw : m = numStates * ch2.context_hit + Dorado.offsets counts b2 +
          (m - (numStates * ch2.context_hit + Dorado.offsets counts b2)) := by omega
      rw [Dorado.writeScoresFrom_get_out ch1.scores _ _ m (by omega)]
      rw [hmrw]
      rw [Dorado.writeScoresFrom_get_in ch2.scores _ _ _ (by omega)
        (by rw [Dorado.writeScoresFrom_length]; omega)]
      rw [Dorado.writeScoresFrom_get_in ch2.scores _ _ _ (by omega) (by omega)]
    · rw [Dorado.writeScoresFrom_get_out ch2.scores _ _ m (by omega),
        Dorado.writeScoresFrom_get_out ch1.scores _ _ m (by omega),
        Dorado.writeScoresFrom_get_out ch1.scores _ _ m (by omega),
        Dorado.writeScoresFrom_get_out ch2.scores _ _ m (by omega)]

/-- Witness for C8: read "ACGT" (buffer length 20, num_states 5 from one
C-model with one modification), chunks at positions 1 and 3. -/
theorem Dorado.C8_disjoint_chunk_writes_witness :
    Dorado.applyChunk 5 (Dorado.offsets Dorado.cexCounts)
        (Dorado.applyChunk 5 (Dorado.offsets Dorado.cexCounts)
          (Dorado.AggRead.mk ['A', 'C', 'G', 'T'] (List.replicate 20 0) 2 0)
          (Dorado.RemoraChunk.mk 0 1 [(1 : ℚ)/2, (3 : ℚ)/4]))
        (Dorado.RemoraChunk.mk 0 3 [(1 : ℚ)/8]) =
      Dorado.applyChunk 5 (Dorado.offsets Dorado.cexCounts)
        (Dorado.applyChunk 5 (Dorado.offsets Dorado.cexCounts)
          (Dorado.AggRead.mk ['A', 'C', 'G', 'T'] (List.replicate 20 0) 2 0)
          (Dorado.RemoraChunk.mk 0 3 [(1 : ℚ)/8]))
        (Dorado.RemoraChunk.mk 0 1 [(1 : ℚ)/2, (3 : ℚ)/4]) :=
  (Dorado.C8_disjoint_chunk_writes
    [Dorado.BaseModParams.mk ['C', 'G'] 0 1] Dorado.cexCounts 5
    (by rfl)
    (Dorado.AggRead.mk ['A', 'C', 'G', 'T'] (List.replicate 20 0) 2 0)
    (Dorado.RemoraChunk.mk 0 1 [(1 : ℚ)/2, (3 : ℚ)/4])
    (Dorado.RemoraChunk.mk 0 3 [(1 : ℚ)/8]) .C .T
    (by decide) (by decide) (by decide) (by decide) (by decide)
    (by decide) (by decide)).2

namespace Dorado

/-! ## Read lifecycle: exactly-once forwarding

Transition system over the per-read counters and containers of
ModBaseCallerNode.cpp.  The runner issues chunks one at a time
(incrementing `num_modbase_chunks`, line 210) while dispatchers and the
output worker may already be completing them; only when issuance is
finished is the read either inserted into `m_working_reads` (some
chunks, lines 220-223) or forwarded directly (zero chunks, line 226).
The output worker increments `num_modbase_chunks_called` per processed
chunk (line 364) and, scanning `m_working_reads`, forwards and erases a
read exactly when `num_modbase_chunks_called == num_modbase_chunks`
(lines 372-377). -/

/-- The observable lifecycle state of one read. -/
structure ReadLife where
  issued : ℕ
  issuanceDone : Bool
  inWorking : Bool
  inFlight : ℕ
  called : ℕ
  forwarded : ℕ
deriving DecidableEq, Repr

/-- A fresh read: `num_modbase_chunks = num_modbase_chunks_called = 0`
(ModBaseCallerNode.cpp:176-177), not yet in the working list. -/
def ReadLife.init : ReadLife := ⟨0, false, false, 0, 0, 0⟩

/-- The events that touch one read's lifecycle. -/
inductive ReadStep : ReadLife → ReadLife → Prop
  /-- The runner creates and enqueues one more chunk for the read
  (ModBaseCallerNode.cpp:207-214). -/
  | issue (s : ReadLife) (h : s.issuanceDone = false) :
      ReadStep s ⟨s.issued + 1, false, s.inWorking, s.inFlight + 1, s.called, s.forwarded⟩
  /-- Chunk issuance finished with chunks: the read enters the working
  list (ModBaseCallerNode.cpp:220-223). -/
  | finishChunked (s : ReadLife) (h : s.issuanceDone = false) (hk : 0 < s.issued) :
      ReadStep s ⟨s.issued, true, true, s.inFlight, s.called, s.forwarded⟩
  /-- Chunk issuance finished with zero chunks: the read bypasses the
  working list and is pushed to the sink (ModBaseCallerNode.cpp:226). -/
  | finishEmpty (s : ReadLife) (h : s.issuanceDone = false) (hk : s.issued = 0) :
      ReadStep s ⟨s.issued, true, s.inWorking, s.inFlight, s.called, s.forwarded + 1⟩
  /-- The output worker applies one of the read's processed chunks
  (ModBaseCallerNode.cpp:355-364). -/
  | complete (s : ReadLife) (h : 0 < s.inFlight) :
      ReadStep s ⟨s.issued, s.issuanceDone, s.inWorking, s.inFlight - 1, s.called + 1,
        s.forwarded⟩
  /-- The output worker's completion scan forwards the read and erases
  it from the working list (ModBaseCallerNode.cpp:372-377). -/
  | scanForward (s : ReadLife) (h : s.inWorking = true) (hc : s.called = s.issued) :
      ReadStep s ⟨s.issued, s.issuanceDone, false, s.inFlight, s.called, s.forwarded + 1⟩

/-- States reachable from a fresh read. -/
inductive ReadReachable : ReadLife → Prop
  | init : ReadReachable ReadLife.init
  | step {s t : ReadLife} : ReadReachable s → ReadStep s t → ReadReachable t

/-- Inductive invariant of the read lifecycle. -/
def ReadInv (s : ReadLife) : Prop :=
  s.called + s.inFlight = s.issued ∧
  (s.inWorking = true → s.issuanceDone = true) ∧
  s.forwarded ≤ 1 ∧
  (s.inWorking = true → s.forwarded = 0) ∧
  (s.forwarded = 1 → s.issuanceDone = true ∧ s.inWorking = false ∧ s.called = s.issued) ∧
  (s.issuanceDone = true → 0 < s.issued → (s.inWorking = true ↔ s.forwarded = 0))

theorem readInv_init : ReadInv ReadLife.init := by
  refine ⟨rfl, ?_, ?_, ?_, ?_, ?_⟩ <;> simp [ReadLife.init]

theorem readInv_step {s t : ReadLife} (hs : ReadInv s) (hst : ReadStep s t) : ReadInv t := by
  obtain ⟨h1, h2, h3, h4, h5, h6⟩ := hs
  cases hst with
  | issue h =>
      refine ⟨by simp; omega, ?_, h3, ?_, ?_, ?_⟩
      · intro hw
        simp at hw
        have := h2 hw
        rw [h] at this
        exact this
      · intro hw
        simp only at hw
        exact h4 hw
      · intro hf
        simp only at hf
        have := (h5 hf).1
        rw [h] at this
        exact absurd this (by simp)
      · intro hd
        exact absurd hd (by simp)
  | finishChunked h hk =>
      have hf0 : s.forwarded = 0 := by
        by_cases hf : s.forwarded = 1
        · have := (h5 hf).1
          rw [h] at this
          exact absurd this (by simp)
        · omega
      refine ⟨h1, by simp, h3, fun _ => hf0, ?_, ?_⟩
      · intro hf
        simp only at hf
        rw [hf0] at hf
        exact absurd hf (by simp)
      · intro _ _
        constructor
        · intro _; exact hf0
        · intro _; rfl
  | finishEmpty h hk =>
      have hf0 : s.forwarded = 0 := by
        by_cases hf : s.forwarded = 1
        · have := (h5 hf).1
          rw [h] at this
          exact absurd this (by simp)
        · omega
      have hw0 : s.inWorking = false := by
        by_cases hw : s.inWorking = true
        · have := h2 hw
          rw [h] at this
          exact absurd this (by simp)
        · simpa using hw
      refine ⟨h1, ?_, by simp [hf0], ?_, ?_, ?_⟩
      · intro _
        rfl
      · intro hw
        exact absurd (show s.inWorking = true from hw) (by simp [hw0])
      · intro _
        refine ⟨rfl, hw0, ?_⟩
        show s.called = s.issued
        omega
      · intro _ hpos
        exact absurd (show 0 < s.issued from hpos) (by omega)
  | complete h =>
      refine ⟨by simp; omega, h2, h3, h4, ?_, h6⟩
      · intro hf
        simp only at hf ⊢
        have h5' := h5 hf
        have : s.inFlight = 0 := by omega
        omega
  | scanForward h hc =>
      have hf0 : s.forwarded = 0 := h4 h
      have hd : s.issuanceDone = true := h2 h
      refine ⟨h1, ?_, by simp [hf0], ?_, ?_, ?_⟩
      · intro hw
        exact absurd hw (by simp)
      · intro hw
        exact absurd hw (by simp)
      · intro _
        exact ⟨hd, rfl, hc⟩
      · intro _ _
        constructor
        · intro hcontra
          exact absurd (show false = true from hcontra) (by simp)
        · intro hcontra
          exact absurd (show s.forwarded + 1 = 0 from hcontra) (by omega)

theorem readInv_reachable {s : ReadLife} (h : ReadReachable s) : ReadInv s := by
  induction h with
  | init => exact readInv_init
  | step _ hst ih => exact readInv_step ih hst

end Dorado

/-- C1: for every read generating K > 0 chunks, the node forwards the
read to its sink exactly once — at most once (forwarded ≤ 1 in every
reachable state, with a step to forwarded = 1 always available once all
chunks completed), only when the completed-chunk counter equals the
issued-chunk counter, and only after issuance reached its final value:
a read in the working list (hence visible to the completion scan)
always has issuance complete. -/
theorem Dorado.C1_forward_exactly_once (s : Dorado.ReadLife)
    (hreach : Dorado.ReadReachable s) :
    s.forwarded ≤ 1 ∧
    (s.inWorking = true → s.issuanceDone = true) ∧
    (∀ t, Dorado.ReadStep s t → 0 < s.issued → t.forwarded = s.forwarded + 1 →
      s.called = s.issued ∧ s.issuanceDone = true ∧ s.inWorking = true) ∧
    (s.issuanceDone = true → s.called = s.issued → 0 < s.issued → s.forwarded = 0 →
      ∃ t, Dorado.ReadStep s t ∧ t.forwarded = 1) := by
  obtain ⟨h1, h2, h3, h4, h5, h6⟩ := Dorado.readInv_reachable hreach
  refine ⟨h3, h2, ?_, ?_⟩
  · intro t hst hpos hfwd
    cases hst with
    | issue h => simp at hfwd
    | finishChunked h hk => simp at hfwd
    | finishEmpty h hk => omega
    | complete h => simp at hfwd
    | scanForward h hc => exact ⟨hc, h2 h, h⟩
  · intro hd hcalled hpos hf0
    have hw : s.inWorking = true := (h6 hd hpos).mpr hf0
    exact ⟨_, Dorado.ReadStep.scanForward s hw hcalled, by simp [hf0]⟩

/-- Witness for C1 at the reachable state reached by issuing one chunk,
finishing issuance, and completing the chunk. -/
theorem Dorado.C1_forward_exactly_once_witness :
    (Dorado.ReadLife.mk 1 true true 0 1 0).forwarded ≤ 1 :=
  (Dorado.C1_forward_exactly_once (Dorado.ReadLife.mk 1 true true 0 1 0)
    (Dorado.ReadReachable.step
      (Dorado.ReadReachable.step
        (Dorado.ReadReachable.step Dorado.ReadReachable.init
          (Dorado.ReadStep.issue Dorado.ReadLife.init rfl))
        (Dorado.ReadStep.finishChunked (Dorado.ReadLife.mk 1 false false 1 0 0) rfl
          (by decide)))
      (Dorado.ReadStep.complete (Dorado.ReadLife.mk 1 true true 1 0 0) (by decide)))).1

namespace Dorado

/-! ## Shutdown cascade

Transition system over the dispatcher (caller) workers and the output
worker of ModBaseCallerNode.cpp.  A dispatcher that observes
`m_terminate_callers` with an empty chunk queue first flushes its held
partial batch through `call_current_batch` (lines 261-267), only then
decrements `m_num_active_model_callers`, and the last one sets
`m_terminate_output` (lines 270-274); the output worker calls
`m_sink.terminate()` only when `m_terminate_output` is set and
`m_processed_chunks` is empty (lines 350-352). -/

/-- Phase of one dispatcher thread: still in its main loop, batch
flushed on the drain path, or exited (active count decremented). -/
inductive DispPhase where
  | running | flushed | done
deriving DecidableEq, Repr

/-- A dispatcher's local state: its chunk-queue occupancy, its held
partial batch size, and its phase. -/
structure Dispatcher where
  queue : ℕ
  batch : ℕ
  phase : DispPhase
deriving DecidableEq, Repr

/-- 1 for a dispatcher not yet exited (counted in
m_num_active_model_callers), 0 otherwise. -/
def dispWeight (d : Dispatcher) : ℕ := if d.phase = .done then 0 else 1

/-- The shared node state of the shutdown protocol. -/
structure NodeState where
  disps : List Dispatcher
  terminateCallers : Bool
  active : ℕ
  processed : ℕ
  applied : ℕ
  terminateOutput : Bool
  sinkTerminated : Bool
deriving DecidableEq, Repr

/-- Start state with n live dispatchers and no pending work. -/
def nodeInit (n : ℕ) : NodeState :=
  ⟨List.replicate n ⟨0, 0, .running⟩, false, n, 0, 0, false, false⟩

/-- The events of the shutdown protocol. -/
inductive NodeStep : NodeState → NodeState → Prop
  /-- A runner enqueues a chunk (runners only run before
  m_terminate_callers is set, ModBaseCallerNode.cpp:232-236). -/
  | enqueue (s : NodeState) (i : ℕ) (d : Dispatcher)
      (hd : s.disps.get? i = some d) (hterm : s.terminateCallers = false) :
      NodeStep s ⟨s.disps.set i ⟨d.queue + 1, d.batch, d.phase⟩, false, s.active,
        s.processed, s.applied, s.terminateOutput, s.sinkTerminated⟩
  /-- The last runner sets m_terminate_callers
  (ModBaseCallerNode.cpp:232-236). -/
  | setTerminate (s : NodeState) :
      NodeStep s ⟨s.disps, true, s.active, s.processed, s.applied,
        s.terminateOutput, s.sinkTerminated⟩
  /-- A running dispatcher moves one chunk from its queue into its batch
  (ModBaseCallerNode.cpp:288-293). -/
  | take (s : NodeState) (i : ℕ) (d : Dispatcher)
      (hd : s.disps.get? i = some d) (hph : d.phase = .running) (hq : 0 < d.queue) :
      NodeStep s ⟨s.disps.set i ⟨d.queue - 1, d.batch + 1, .running⟩, s.terminateCallers,
        s.active, s.processed, s.applied, s.terminateOutput, s.sinkTerminated⟩
  /-- A running dispatcher scores its batch (full batch or idle flush),
  moving it to the processed-chunks buffer (ModBaseCallerNode.cpp:314-341). -/
  | score (s : NodeState) (i : ℕ) (d : Dispatcher)
      (hd : s.disps.get? i = some d) (hph : d.phase = .running) (hb : 0 < d.batch) :
      NodeStep s ⟨s.disps.set i ⟨d.queue, 0, .running⟩, s.terminateCallers, s.active,
        s.processed + d.batch, s.applied, s.terminateOutput, s.sinkTerminated⟩
  /-- A dispatcher observes termination with an empty queue and flushes
  its held partial batch through scoring (ModBaseCallerNode.cpp:261-267). -/
  | drainFlush (s : NodeState) (i : ℕ) (d : Dispatcher)
      (hd : s.disps.get? i = some d) (hph : d.phase = .running)
      (hterm : s.terminateCallers = true) (hq : d.queue = 0) :
      NodeStep s ⟨s.disps.set i ⟨0, 0, .flushed⟩, true, s.active,
        s.processed + d.batch, s.applied, s.terminateOutput, s.sinkTerminated⟩
  /-- A flushed dispatcher decrements the active count and exits; the
  last one sets m_terminate_output (ModBaseCallerNode.cpp:270-274). -/
  | drainDec (s : NodeState) (i : ℕ) (d : Dispatcher)
      (hd : s.disps.get? i = some d) (hph : d.phase = .flushed) :
      NodeStep s ⟨s.disps.set i ⟨d.queue, d.batch, .done⟩, s.terminateCallers,
        s.active - 1, s.processed, s.applied,
        (if s.active - 1 = 0 then true else s.terminateOutput), s.sinkTerminated⟩
  /-- The output worker applies the processed chunks to their reads and
  clears the buffer (ModBaseCallerNode.cpp:355-367). -/
  | outputApply (s : NodeState) (hp : 0 < s.processed) :
      NodeStep s ⟨s.disps, s.terminateCallers, s.active, 0,
        s.applied + s.processed, s.terminateOutput, s.sinkTerminated⟩
  /-- The output worker observes m_terminate_output with an empty
  processed buffer and terminates the sink (ModBaseCallerNode.cpp:350-352). -/
  | sinkTerm (s : NodeState) (ht : s.terminateOutput = true)
      (hp : s.processed = 0) (hs : s.sinkTerminated = false) :
      NodeStep s ⟨s.disps, s.terminateCallers, s.active, s.processed, s.applied,
        s.terminateOutput, true⟩

/-- States reachable from n live dispatchers. -/
inductive NodeReachable (n : ℕ) : NodeState → Prop
  | init : NodeReachable n (nodeInit n)
  | step {s t : NodeState} : NodeReachable n s → NodeStep s t → NodeReachable n t

theorem sum_map_set {α : Type} (f : α → ℕ) (l : List α) (i : ℕ) (x y : α)
    (h : l.get? i = some x) :
    ((l.set i y).map f).sum + f x = (l.map f).sum + f y := by
  induction l generalizing i with
  | nil => simp at h
  | cons a as ih =>
      cases i with
      | zero =>
          simp only [List.get?] at h
          injection h with h
          subst h
          simp only [List.set, List.map, List.sum_cons]
          omega
      | succ i =>
          simp only [List.get?] at h
          have hih := ih i h
          simp only [List.set, List.map, List.sum_cons]
          omega

theorem dispWeight_eq_zero {d : Dispatcher} (h : dispWeight d = 0) : d.phase = .done := by
  by_cases hp : d.phase = .done
  · exact hp
  · simp [dispWeight, hp] at h

/-- Inductive invariant of the shutdown protocol. -/
def NodeInv (s : NodeState) : Prop :=
  s.active = (s.disps.map dispWeight).sum ∧
  (∀ d ∈ s.disps, d.phase ≠ .running →
      d.batch = 0 ∧ d.queue = 0 ∧ s.terminateCallers = true) ∧
  (s.terminateOutput = true → s.active = 0) ∧
  (s.sinkTerminated = true → s.terminateOutput = true ∧ s.processed = 0)

theorem nodeInv_init (n : ℕ) : NodeInv (nodeInit n) := by
  refine ⟨?_, ?_, ?_, ?_⟩
  · show n = ((List.replicate n ⟨0, 0, .running⟩).map dispWeight).sum
    simp [dispWeight]
  · intro d hd hph
    have := List.eq_of_mem_replicate hd
    subst this
    exact absurd rfl hph
  · intro h; exact absurd h (by simp [nodeInit])
  · intro h; exact absurd h (by simp [nodeInit])

/-- A live (non-done) dispatcher forces a positive active count. -/
theorem active_pos_of_live {s : NodeState} (hinv : NodeInv s) (i : ℕ) (d : Dispatcher)
    (hd : s.disps.get? i = some d) (hph : d.phase ≠ .done) : 0 < s.active := by
  obtain ⟨h1, _, _, _⟩ := hinv
  have hmem : d ∈ s.disps := List.get?_mem hd
  have hw : dispWeight d ∈ s.disps.map dispWeight := List.mem_map_of_mem dispWeight hmem
  have hle := List.le_sum_of_mem hw
  have : dispWeight d = 1 := by simp [dispWeight, hph]
  omega

theorem nodeInv_step {s t : NodeState} (hs : NodeInv s) (hst : NodeStep s t) :
    NodeInv t := by
  obtain ⟨h1, h2, h3, h4⟩ := hs
  cases hst with
  | enqueue i d hd hterm =>
      refine ⟨?_, ?_, h3, h4⟩
      · show s.active = ((s.disps.set i ⟨d.queue + 1, d.batch, d.phase⟩).map dispWeight).sum
        have := sum_map_set dispWeight s.disps i d ⟨d.queue + 1, d.batch, d.phase⟩ hd
        have hw : dispWeight ⟨d.queue + 1, d.batch, d.phase⟩ = dispWeight d := by
          simp [dispWeight]
        omega
      · intro d2 hd2 hph
        rcases List.mem_or_eq_of_mem_set hd2 with hmem | heq
        · have hcontra := (h2 d2 hmem hph).2.2
          rw [hterm] at hcontra
          exact absurd hcontra (by simp)
        · subst heq
          have hmem : d ∈ s.disps := List.get?_mem hd
          have hcontra := (h2 d hmem (by simpa using hph)).2.2
          rw [hterm] at hcontra
          exact absurd hcontra (by simp)
  | setTerminate =>
      refine ⟨h1, ?_, h3, h4⟩
      intro d2 hd2 hph
      exact ⟨(h2 d2 hd2 hph).1, (h2 d2 hd2 hph).2.1, rfl⟩
  | take i d hd hph hq =>
      refine ⟨?_, ?_, h3, h4⟩
      · show s.active = ((s.disps.set i ⟨d.queue - 1, d.batch + 1, .running⟩).map dispWeight).sum
        have := sum_map_set dispWeight s.disps i d ⟨d.queue - 1, d.batch + 1, .running⟩ hd
        have hw : dispWeight ⟨d.queue - 1, d.batch + 1, .running⟩ = dispWeight d := by
          simp [dispWeight, hph]
        omega
      · intro d2 hd2 hph2
        rcases List.mem_or_eq_of_mem_set hd2 with hmem | heq
        · exact h2 d2 hmem hph2
        · subst heq
          exact absurd rfl hph2
  | score i d hd hph hb =>
      refine ⟨?_, ?_, h3, ?_⟩
      · show s.active = ((s.disps.set i ⟨d.queue, 0, .running⟩).map dispWeight).sum
        have := sum_map_set dispWeight s.disps i d ⟨d.queue, 0, .running⟩ hd
        have hw : dispWeight ⟨d.queue, 0, .running⟩ = dispWeight d := by
          simp [dispWeight, hph]
        omega
      · intro d2 hd2 hph2
        rcases List.mem_or_eq_of_mem_set hd2 with hmem | heq
        · exact h2 d2 hmem hph2
        · subst heq
          exact absurd rfl hph2
      · intro hsink
        have h4' := h4 hsink
        have h30 := h3 h4'.1
        have hpos := active_pos_of_live ⟨h1, h2, h3, h4⟩ i d hd (by rw [hph]; simp)
        omega
  | drainFlush i d hd hph hterm hq =>
      refine ⟨?_, ?_, h3, ?_⟩
      · show s.active = ((s.disps.set i ⟨0, 0, .flushed⟩).map dispWeight).sum
        have := sum_map_set dispWeight s.disps i d ⟨0, 0, .flushed⟩ hd
        have hw : dispWeight ⟨0, 0, .flushed⟩ = dispWeight d := by
          simp [dispWeight, hph]
        omega
      · intro d2 hd2 hph2
        rcases List.mem_or_eq_of_mem_set hd2 with hmem | heq
        · exact ⟨(h2 d2 hmem hph2).1, (h2 d2 hmem hph2).2.1, rfl⟩
        · subst heq
          exact ⟨rfl, rfl, rfl⟩
      · intro hsink
        have h4' := h4 hsink
        have h30 := h3 h4'.1
        have hpos := active_pos_of_live ⟨h1, h2, h3, h4⟩ i d hd (by rw [hph]; simp)
        omega
  | drainDec i d hd hph =>
      have hdb := h2 d (List.get?_mem hd) (by rw [hph]; simp)
      refine ⟨?_, ?_, ?_, ?_⟩
      · show s.active - 1 = ((s.disps.set i ⟨d.queue, d.batch, .done⟩).map dispWeight).sum
        have := sum_map_set dispWeight s.disps i d ⟨d.queue, d.batch, .done⟩ hd
        have hw1 : dispWeight ⟨d.queue, d.batch, .done⟩ = 0 := by simp [dispWeight]
        have hw2 : dispWeight d = 1 := by simp [dispWeight, hph]
        omega
      · intro d2 hd2 hph2
        rcases List.mem_or_eq_of_mem_set hd2 with hmem | heq
        · exact h2 d2 hmem hph2
        · subst heq
          exact ⟨hdb.1, hdb.2.1, hdb.2.2⟩
      · intro hout
        show s.active - 1 = 0
        by_cases hz : s.active - 1 = 0
        · exact hz
        · have : s.terminateOutput = true := by
            have hcond : (if s.active - 1 = 0 then true else s.terminateOutput) = true := hout
            rw [if_neg hz] at hcond
            exact hcond
          have := h3 this
          omega
      · intro hsink
        have h4' := h4 (show s.sinkTerminated = true from hsink)
        refine ⟨?_, h4'.2⟩
        show (if s.active - 1 = 0 then true else s.terminateOutput) = true
        by_cases hz : s.active - 1 = 0
        · rw [if_pos hz]
        · rw [if_neg hz]; exact h4'.1
  | outputApply hp =>
      exact ⟨h1, h2, h3, fun hsink => ⟨(h4 hsink).1, rfl⟩⟩
  | sinkTerm ht hp hs =>
      exact ⟨h1, h2, h3, fun _ => ⟨ht, hp⟩⟩

theorem nodeInv_reachable {n : ℕ} {s : NodeState} (h : NodeReachable n s) : NodeInv s := by
  induction h with
  | init => exact nodeInv_init n
  | step _ hst ih => exact nodeInv_step ih hst

end Dorado

/-- C6: shutdown cascades strictly downstream without losing buffered
work: every dispatcher that has left its running phase (in particular
any dispatcher that decremented the active count — the decrement step
requires the flushed phase, which is only entered by flushing the held
batch through scoring) has an empty batch and an empty queue; once
m_terminate_output is set the active count is zero and every dispatcher
is done; and the step that terminates the sink can only fire from a
state where all dispatchers are finished and the pending-results buffer
is empty — never while scored chunks are pending. -/
theorem Dorado.C6_shutdown_cascade (n : ℕ) (s : Dorado.NodeState)
    (hreach : Dorado.NodeReachable n s) :
    (∀ d ∈ s.disps, d.phase ≠ .running → d.batch = 0 ∧ d.queue = 0) ∧
    (s.terminateOutput = true →
      s.active = 0 ∧ ∀ d ∈ s.disps, d.phase = .done) ∧
    (∀ t, Dorado.NodeStep s t → t.sinkTerminated = true → s.sinkTerminated = false →
      s.terminateOutput = true ∧ s.processed = 0 ∧
      ∀ d ∈ s.disps, d.phase = .done ∧ d.batch = 0 ∧ d.queue = 0) := by
  obtain ⟨h1, h2, h3, h4⟩ := Dorado.nodeInv_reachable hreach
  have halldone : s.terminateOutput = true → ∀ d ∈ s.disps, d.phase = .done := by
    intro hout d hd
    have hz := h3 hout
    have hsum : (s.disps.map Dorado.dispWeight).sum = 0 := by omega
    have hw : Dorado.dispWeight d ∈ s.disps.map Dorado.dispWeight :=
      List.mem_map_of_mem Dorado.dispWeight hd
    have hle := List.le_sum_of_mem hw
    exact Dorado.dispWeight_eq_zero (by omega)
  refine ⟨?_, ?_, ?_⟩
  · intro d hd hph
    exact ⟨(h2 d hd hph).1, (h2 d hd hph).2.1⟩
  · intro hout
    exact ⟨h3 hout, halldone hout⟩
  · intro t hst htsink hssink
    cases hst with
    | enqueue i d hd hterm => exact absurd (hssink ▸ htsink) (by simp)
    | setTerminate => exact absurd (hssink ▸ htsink) (by simp)
    | take i d hd hph hq => exact absurd (hssink ▸ htsink) (by simp)
    | score i d hd hph hb => exact absurd (hssink ▸ htsink) (by simp)
    | drainFlush i d hd hph hterm hq => exact absurd (hssink ▸ htsink) (by simp)
    | drainDec i d hd hph => exact absurd (hssink ▸ htsink) (by simp)
    | outputApply hp => exact absurd (hssink ▸ htsink) (by simp)
    | sinkTerm ht hp hs =>
        refine ⟨ht, hp, ?_⟩
        intro d hd
        have hdone := halldone ht d hd
        have hnb := h2 d hd (by rw [hdone]; simp)
        exact ⟨hdone, hnb.1, hnb.2.1⟩

/-- Witness for C6: one dispatcher reaching full shutdown (terminate,
drain-flush, decrement): the active count is zero. -/
theorem Dorado.C6_shutdown_cascade_witness :
    (Dorado.NodeState.mk [Dorado.Dispatcher.mk 0 0 .done] true 0 0 0 true false).active
      = 0 := by
  have hreach : Dorado.NodeReachable 1
      (Dorado.NodeState.mk [Dorado.Dispatcher.mk 0 0 .done] true 0 0 0 true false) := by
    exact Dorado.NodeReachable.step
      (Dorado.NodeReachable.step
        (Dorado.NodeReachable.step Dorado.NodeReachable.init
          (Dorado.NodeStep.setTerminate (Dorado.nodeInit 1)))
        (Dorado.NodeStep.drainFlush _ 0 (Dorado.Dispatcher.mk 0 0 .running)
          rfl rfl rfl rfl))
      (Dorado.NodeStep.drainDec _ 0 (Dorado.Dispatcher.mk 0 0 .flushed) rfl rfl)
  exact ((Dorado.C6_shutdown_cascade 1 _ hreach).2.1 rfl).1

namespace Dorado

/-! ## Dispatcher loop: flush-on-idle

One iteration of caller_worker_thread's loop (ModBaseCallerNode.cpp:
247-311).  The wait `m_chunks_added_cv.wait_until(lock,
last_chunk_reserve_time + FORCE_TIMEOUT, pred)` returns false exactly
when the deadline passes with the queue empty and no termination
request; in that case a held non-empty partial batch is scored
immediately (lines 253-258).  Every chunk taken from the queue resets
`last_chunk_reserve_time` to the take time (line 292). -/

/-- The dispatcher-local state across iterations. -/
structure CallerState where
  batch : ℕ
  lastReserve : ℕ
deriving DecidableEq, Repr

/-- One loop iteration of caller_worker_thread.  Inputs: the timeout and
batch capacity, the local state, the queue occupancy and clock time at
the moment the wait returned, and the termination flag.  Result: the new
local state, the score calls made (time, batch size), and whether the
thread exits (drain path). -/
def dispatchIter (_T batchCap : ℕ) (s : CallerState) (queueLen tNow : ℕ) (term : Bool) :
    CallerState × List (ℕ × ℕ) × Bool :=
  if queueLen = 0 then
    if term then
      -- drain path (lines 261-275): flush any held batch, then exit
      if s.batch ≠ 0 then (⟨0, s.lastReserve⟩, [(tNow, s.batch)], true)
      else (s, [], true)
    else
      -- wait timed out (lines 253-258): flush any held partial batch
      if s.batch ≠ 0 then (⟨0, s.lastReserve⟩, [(tNow, s.batch)], false)
      else (s, [], false)
  else
    -- items available (lines 285-310): take as many as fit, resetting
    -- the idle timer on every item taken; score when the batch fills
    let k := min (batchCap - s.batch) queueLen
    let newReserve := if 0 < k then tNow else s.lastReserve
    if s.batch + k = batchCap then (⟨0, newReserve⟩, [(tNow, batchCap)], false)
    else (⟨s.batch + k, newReserve⟩, [], false)

end Dorado

/-- C7: if the bounded wait times out (empty queue, no termination — the
wait can then only return at the deadline `lastReserve + T`) while a
non-empty partial batch is held, that iteration scores exactly the held
batch at the deadline — within one timeout window of the last item
taken, since every item taken resets the idle timer — clears it, and
stays in the loop (so the score happens before the next wait). -/
theorem Dorado.C7_flush_on_idle (T cap : ℕ) (s : Dorado.CallerState)
    (hbatch : s.batch ≠ 0) :
    Dorado.dispatchIter T cap s 0 (s.lastReserve + T) false =
      (⟨0, s.lastReserve⟩, [(s.lastReserve + T, s.batch)], false) ∧
    (∀ q tNow term, q ≠ 0 → 0 < min (cap - s.batch) q →
      (Dorado.dispatchIter T cap s q tNow term).1.lastReserve = tNow) := by
  constructor
  · simp [Dorado.dispatchIter, hbatch]
  · intro q tNow term hq hk
    simp only [Dorado.dispatchIter, if_neg hq, if_pos hk]
    by_cases hfull : s.batch + min (cap - s.batch) q = cap
    · rw [if_pos hfull]
    · rw [if_neg hfull]

/-- Witness for C7: batch of 2 held since time 10, timeout 100,
capacity 4. -/
theorem Dorado.C7_flush_on_idle_witness :
    Dorado.dispatchIter 100 4 (Dorado.CallerState.mk 2 10) 0 (10 + 100) false =
      (Dorado.CallerState.mk 0 10, [(10 + 100, 2)], false) :=
  (Dorado.C7_flush_on_idle 100 4 (Dorado.CallerState.mk 2 10) (by decide)).1

namespace Dorado

/-! ## Expander backpressure

runner_worker_thread (ModBaseCallerNode.cpp:145-154, 212-217): before
generating a read's chunks, the runner waits until every per-model chunk
queue holds fewer than `max_chunks_in = m_batch_size * 5` chunks; it
then enqueues all of the read's chunks for each model without
re-checking the mark.  Queues are indexed 0..m-1; a read's demand is a
function from queue index to its chunk count for that model. -/

/-- The expander/queue state: per-queue occupancy, per-queue chunks
already taken by dispatchers, and the reads still to process. -/
structure ExpState where
  queues : ℕ → ℕ
  taken : ℕ → ℕ
  pending : List (ℕ → ℕ)

/-- Initial state: empty queues, all reads pending. -/
def expInit (reads : List (ℕ → ℕ)) : ExpState :=
  ⟨fun _ => 0, fun _ => 0, reads⟩

/-- Events: the runner processes the next read (guarded by the
high-water mark on every queue, then enqueueing every chunk), or a
dispatcher pops one chunk from a queue. -/
inductive ExpStep (m hwm : ℕ) : ExpState → ExpState → Prop
  | processRead (s : ExpState) (r : ℕ → ℕ) (rest : List (ℕ → ℕ))
      (hp : s.pending = r :: rest)
      (hguard : ∀ i, i < m → s.queues i < hwm) :
      ExpStep m hwm s ⟨fun i => s.queues i + r i, s.taken, rest⟩
  | popChunk (s : ExpState) (i : ℕ) (him : i < m) (hq : 0 < s.queues i) :
      ExpStep m hwm s ⟨Function.update s.queues i (s.queues i - 1),
        Function.update s.taken i (s.taken i + 1), s.pending⟩

/-- States reachable from the given workload. -/
inductive ExpReachable (m hwm : ℕ) (reads : List (ℕ → ℕ)) : ExpState → Prop
  | init : ExpReachable m hwm reads (expInit reads)
  | step {s t : ExpState} : ExpReachable m hwm reads s → ExpStep m hwm s t →
      ExpReachable m hwm reads t

/-- Inductive invariant of the backpressure system, for workloads whose
reads each demand at most R chunks per queue. -/
def ExpInv (m hwm R : ℕ) (reads : List (ℕ → ℕ)) (s : ExpState) : Prop :=
  (∀ r ∈ s.pending, ∀ i, r i ≤ R) ∧
  (∀ i, i < m → s.queues i ≤ hwm - 1 + R) ∧
  (∀ i, s.queues i + s.taken i + (s.pending.map (fun r => r i)).sum =
    (reads.map (fun r => r i)).sum)

theorem expInv_init (m hwm R : ℕ) (reads : List (ℕ → ℕ))
    (hR : ∀ r ∈ reads, ∀ i, r i ≤ R) : ExpInv m hwm R reads (expInit reads) := by
  refine ⟨hR, ?_, ?_⟩
  · intro i _
    show 0 ≤ hwm - 1 + R
    omega
  · intro i
    show 0 + 0 + (List.map (fun r => r i) reads).sum = (List.map (fun r => r i) reads).sum
    generalize (List.map (fun r => r i) reads).sum = S
    omega

theorem expInv_step {m hwm R : ℕ} {reads : List (ℕ → ℕ)} {s t : ExpState}
    (hs : ExpInv m hwm R reads s) (hst : ExpStep m hwm s t) :
    ExpInv m hwm R reads t := by
  obtain ⟨h1, h2, h3⟩ := hs
  cases hst with
  | processRead r rest hp hguard =>
      have hrR : ∀ i, r i ≤ R := h1 r (by rw [hp]; exact List.mem_cons_self r rest)
      refine ⟨?_, ?_, ?_⟩
      · intro r2 hr2 i
        exact h1 r2 (by rw [hp]; exact List.mem_cons_of_mem r hr2) i
      · intro i him
        show s.queues i + r i ≤ hwm - 1 + R
        have hg := hguard i him
        have := hrR i
        omega
      · intro i
        show s.queues i + r i + s.taken i + (rest.map (fun r => r i)).sum =
          (reads.map (fun r => r i)).sum
        have hthis := h3 i
        rw [hp] at hthis
        simp only [List.map_cons, List.sum_cons] at hthis
        generalize hS1 : (List.map (fun r => r i) rest).sum = S1 at hthis ⊢
        generalize hS2 : (List.map (fun r => r i) reads).sum = S2 at hthis ⊢
        clear hS1 hS2
        omega
  | popChunk i him hq =>
      refine ⟨h1, ?_, ?_⟩
      · intro j hjm
        by_cases hij : j = i
        · subst hij
          show Function.update s.queues j (s.queues j - 1) j ≤ hwm - 1 + R
          rw [Function.update_same]
          have := h2 j hjm
          omega
        · show Function.update s.queues i (s.queues i - 1) j ≤ hwm - 1 + R
          rw [Function.update_noteq hij]
          exact h2 j hjm
      · intro j
        by_cases hij : j = i
        · subst hij
          show Function.update s.queues j (s.queues j - 1) j +
              Function.update s.taken j (s.taken j + 1) j +
              (s.pending.map (fun r => r j)).sum = (reads.map (fun r => r j)).sum
          rw [Function.update_same, Function.update_same]
          have hthis := h3 j
          generalize hS1 : (List.map (fun r => r j) s.pending).sum = S1 at hthis ⊢
          generalize hS2 : (List.map (fun r => r j) reads).sum = S2 at hthis ⊢
          clear hS1 hS2
          omega
        · show Function.update s.queues i (s.queues i - 1) j +
              Function.update s.taken i (s.taken i + 1) j +
              (s.pending.map (fun r => r j)).sum = (reads.map (fun r => r j)).sum
          rw [Function.update_noteq hij, Function.update_noteq hij]
          exact h3 j

theorem expInv_reachable {m hwm R : ℕ} {reads : List (ℕ → ℕ)} {s : ExpState}
    (hR : ∀ r ∈ reads, ∀ i, r i ≤ R) (h : ExpReachable m hwm reads s) :
    ExpInv m hwm R reads s := by
  induction h with
  | init => exact expInv_init m hwm R reads hR
  | step _ hst ih => exact expInv_step ih hst

end Dorado

/-- C4 counterexample: the claim "no per-model request queue's occupancy
ever exceeds the high-water mark" is false.  With batch_size 1 (mark
`batch_size * 5 = 5`), one queue, and a single read generating 6 chunks
for that model, the runner's guard passes on the empty queue and it then
enqueues all 6 chunks, driving the occupancy to 6 > 5. -/
theorem Dorado.C4_counterexample :
    ¬ (∀ s, Dorado.ExpReachable 1 5 [fun _ => 6] s → ∀ i, i < 1 → s.queues i ≤ 5) := by
  intro hclaim
  have hstep : Dorado.ExpStep 1 5 (Dorado.expInit [fun _ => 6])
      ⟨fun i => (Dorado.expInit [fun _ => 6]).queues i + (fun _ => 6) i,
        (Dorado.expInit [fun _ => 6]).taken, []⟩ :=
    Dorado.ExpStep.processRead _ (fun _ => 6) [] rfl
      (fun i _ => by show (0 : ℕ) < 5; norm_num)
  have hreach := Dorado.ExpReachable.step Dorado.ExpReachable.init hstep
  have h := hclaim _ hreach 0 (by norm_num)
  have h6 : (0 : ℕ) + 6 ≤ 5 := h
  omega

/-- C4 amended: the expander begins enqueuing a read's chunks only when
every per-model request queue is strictly below the high-water mark
(the guard of every read-consuming step), occupancy is bounded by
`hwm - 1 + R` where R bounds a read's per-model chunk count (i.e. the
mark can be exceeded, but only by the chunks of the single read being
enqueued), and no chunk is ever dropped: every enqueued chunk is either
still in its queue or was taken by a dispatcher. -/
theorem Dorado.C4_backpressure_amended (m hwm R : ℕ) (reads : List (ℕ → ℕ))
    (s : Dorado.ExpState) (hR : ∀ r ∈ reads, ∀ i, r i ≤ R)
    (hreach : Dorado.ExpReachable m hwm reads s) :
    (∀ i, i < m → s.queues i ≤ hwm - 1 + R) ∧
    (∀ t, Dorado.ExpStep m hwm s t → t.pending.length < s.pending.length →
      ∀ i, i < m → s.queues i < hwm) ∧
    (∀ i, s.queues i + s.taken i + (s.pending.map (fun r => r i)).sum =
      (reads.map (fun r => r i)).sum) := by
  obtain ⟨h1, h2, h3⟩ := Dorado.expInv_reachable hR hreach
  refine ⟨h2, ?_, h3⟩
  intro t hst hlen
  cases hst with
  | processRead r rest hp hguard => exact hguard
  | popChunk i him hq =>
      exact absurd hlen (by simp)

/-- Witness for C4 amended: one queue, mark 5, one read of 6 chunks:
after the read is processed the occupancy is bounded by 5 - 1 + 6. -/
theorem Dorado.C4_backpressure_amended_witness :
    (Dorado.ExpState.mk (fun _ => 6) (fun _ => 0) []).queues 0 ≤ 5 - 1 + 6 := by
  have hstep : Dorado.ExpStep 1 5 (Dorado.expInit [fun _ => 6])
      (Dorado.ExpState.mk (fun _ => 6) (fun _ => 0) []) :=
    Dorado.ExpStep.processRead _ (fun _ => 6) [] rfl
      (fun i _ => by show (0 : ℕ) < 5; norm_num)
  have hreach := Dorado.ExpReachable.step Dorado.ExpReachable.init hstep
  exact (Dorado.C4_backpressure_amended 1 5 6 [fun _ => 6]
    (Dorado.ExpState.mk (fun _ => 6) (fun _ => 0) [])
    (by intro r hr i; simp at hr; subst hr; norm_num) hreach).1 0 (by norm_num)
